import Mathlib

/-!
Verification of the separate-chaining hash table in `src/main.c`
(joedownard/HashTable).

Embedding notes.

* A C string is modelled by `CStr`: its address (`addr`) and the bytes of
  its content up to the NUL terminator (`content`).  All key comparisons in
  the C code are pointer comparisons (`bucket->key == key`,
  `bucket->key != ""`), so they are modelled as comparisons of `addr`.
  The string literal `""` used as the terminal-marker key has the
  distinguished address `0`; every other string object has `addr ≠ 0`.
* A bucket chain (`struct Bucket` linked by `chainedBucket`) is modelled by
  the inductive `Chain`.  The constructor `Chain.term` is a node whose key
  is the `""` literal and whose `chainedBucket` pointer is uninitialized
  (the code never follows it).  A `Chain.node` whose key has `addr = 0`
  is also treated as a terminal by every operation, exactly as in the code.
* `struct HashTable` is `HashTable`: its `int numBuckets` field (modelled
  as `Int`) and the bucket-pointer array (modelled as `List Chain`).
* Machine arithmetic: `hash` works on `unsigned long` (64 bits), so every
  step is taken modulo `2 ^ 64`.  `hash(key) % table->numBuckets` for a
  positive `numBuckets` equals `hash key.content % numBuckets` as naturals.
-/

namespace Main

/-- A C string object: heap address plus byte content (bytes before NUL).
Address `0` is reserved for the string literal `""` used by the code as the
end-of-chain marker key. -/
structure CStr where
  addr : Nat
  content : List Nat
deriving DecidableEq

/-- The string literal `""` that the code stores as the terminal key. -/
def emptyLit : CStr := ⟨0, []⟩

/-- `struct Bucket` chain: either the terminal marker node (key `""`,
uninitialized successor) or an allocated node with key, value and
successor. -/
inductive Chain where
  | term : Chain
  | node (key : CStr) (value : Int) (next : Chain) : Chain
deriving DecidableEq

/-- `struct HashTable`: the `numBuckets` field and the array of bucket
pointers. -/
structure HashTable where
  numBuckets : Int
  buckets : List Chain
deriving DecidableEq

/-- `constructHashTable` (main.c:28-36): stores `numBuckets` and fills each
of the `numBuckets` slots with a fresh bucket whose key is `""` (a terminal
marker).  For a non-positive count the loop body never runs, so the slot
array is empty; nothing is rejected. -/
def constructHashTable (numBuckets : Int) : HashTable :=
  ⟨numBuckets, List.replicate numBuckets.toNat Chain.term⟩

/-- DJB2 `hash` (main.c:68-77): accumulator starts at 5381 and each byte
`c` updates it to `((hash << 5) + hash) + c` in `unsigned long` (64-bit
wraparound) arithmetic.  The loop stops at the NUL terminator, i.e. it
consumes exactly `content`. -/
def hash (str : List Nat) : Nat :=
  str.foldl (fun h c => ((h <<< 5) + h + c) % 2 ^ 64) 5381

/-- `chainValue` (main.c:87-97): walk past occupied nodes (key `!= ""`);
at the first terminal-looking node, store the key/value there and attach a
fresh terminal marker.  No key comparison is performed: the pair is always
appended at the tail, even if the key already occurs in the chain. -/
def chainValue : Chain → CStr → Int → Chain
  | Chain.node k v next, key, value =>
      if k.addr ≠ 0 then Chain.node k v (chainValue next key value)
      else Chain.node key value Chain.term
  | Chain.term, key, value => Chain.node key value Chain.term

/-- `addToTable` (main.c:105-108): compute `hash(key) % numBuckets` and
replace that slot with the chain returned by `chainValue`. -/
def addToTable (table : HashTable) (key : CStr) (value : Int) : HashTable :=
  let boundedHash := hash key.content % table.numBuckets.toNat
  ⟨table.numBuckets,
   table.buckets.set boundedHash
     (chainValue (table.buckets.getD boundedHash Chain.term) key value)⟩

/-- `searchBucket` (main.c:116-126): walk occupied nodes; return the first
node whose key pointer equals the target pointer (`bucket->key == key` is
an address comparison), or `0` (here `none`) at the terminal marker.  The
result is the found node's key/value pair. -/
def searchBucket : Chain → CStr → Option (CStr × Int)
  | Chain.node k v next, key =>
      if k.addr ≠ 0 then
        if k.addr = key.addr then some (k, v)
        else searchBucket next key
      else none
  | Chain.term, _ => none

/-- `searchTable` (main.c:134-137): compute `hash(key) % numBuckets` and
search that slot's chain. -/
def searchTable (table : HashTable) (key : CStr) : Option (CStr × Int) :=
  let boundedHash := hash key.content % table.numBuckets.toNat
  searchBucket (table.buckets.getD boundedHash Chain.term) key

/-- `reformChainExcluding` (main.c:159-170): walk occupied nodes; on the
first node whose key pointer equals the target, return its successor (the
node is freed); otherwise rebuild the chain; at a terminal-looking node
return the chain unchanged. -/
def reformChainExcluding : Chain → CStr → Chain
  | Chain.node k v next, key =>
      if k.addr ≠ 0 then
        if k.addr = key.addr then next
        else Chain.node k v (reformChainExcluding next key)
      else Chain.node k v next
  | Chain.term, _ => Chain.term

/-- `removeFromTable` (main.c:177-180): compute `hash(key) % numBuckets`
and replace that slot with the chain returned by `reformChainExcluding`. -/
def removeFromTable (table : HashTable) (key : CStr) : HashTable :=
  let boundedHash := hash key.content % table.numBuckets.toNat
  ⟨table.numBuckets,
   table.buckets.set boundedHash
     (reformChainExcluding (table.buckets.getD boundedHash Chain.term) key)⟩

/-- `printBucket` (main.c:186-191): for an occupied node, first print the
chained bucket recursively, then print this node's pair, so the printed
order is the reverse of the chain order.  Modelled as the list of printed
key/value pairs. -/
def printBucket : Chain → List (CStr × Int)
  | Chain.node k v next =>
      if k.addr ≠ 0 then printBucket next ++ [(k, v)] else []
  | Chain.term => []

/-- `printTable` (main.c:197-203): for each bucket index `i` from `0` to
`numBuckets - 1` in order, print the header `[i]` and then the bucket.
Modelled as the list of `(index, printed pairs)`. -/
def printTable (table : HashTable) : List (Nat × List (CStr × Int)) :=
  (List.range table.numBuckets.toNat).map
    (fun i => (i, printBucket (table.buckets.getD i Chain.term)))

/-- A sequence of upserts: `addToTable` folded over a list of
key/value pairs (as `readIntoTable`, main.c:211-217, does for its array). -/
def applyUpserts (table : HashTable) (ops : List (CStr × Int)) : HashTable :=
  ops.foldl (fun t op => addToTable t op.1 op.2) table

/-- The bucket index every table operation computes:
`hash(key) % table->numBuckets`. -/
def bucketIdx (table : HashTable) (key : CStr) : Nat :=
  hash key.content % table.numBuckets.toNat

/-- Build a chain holding the listed pairs in order, ending in the terminal
marker.  Bridge between `Chain` and `List` used to state chain contents. -/
def chainOf : List (CStr × Int) → Chain
  | [] => Chain.term
  | p :: rest => Chain.node p.1 p.2 (chainOf rest)

/-- Number of occupied entries in a chain whose key address matches the
target key's address (stops at the first terminal-looking node, like every
traversal in the code). -/
def countMatches : Chain → CStr → Nat
  | Chain.node k _ next, key =>
      if k.addr ≠ 0 then
        (if k.addr = key.addr then 1 else 0) + countMatches next key
      else 0
  | Chain.term, _ => 0

/-- Remove the first pair whose key address matches `key`: the list-level
counterpart of `reformChainExcluding`. -/
def spliceFirst : List (CStr × Int) → CStr → List (CStr × Int)
  | [], _ => []
  | p :: rest, key =>
      if p.1.addr = key.addr then rest else p :: spliceFirst rest key

/-- A well-formed chain: zero or more occupied nodes (key address `≠ 0`)
followed by the terminal marker.  `Chain` is finite by construction, so the
marker is reached in finitely many `next` steps. -/
def chainWF : Chain → Bool
  | Chain.term => true
  | Chain.node k _ next => k.addr != 0 && chainWF next

/-- A well-formed table: the slot array has `numBuckets` entries and every
chain is well-formed. -/
def tableWF (t : HashTable) : Bool :=
  (t.buckets.length == t.numBuckets.toNat) && t.buckets.all chainWF

/-- The shape of a table reachable from `constructHashTable n` after the
upserts in `hist`: `numBuckets` is `n`, there are `n` slots, and slot `i`
holds exactly the entries of `hist` whose key hashes to bucket `i`, in
insertion order. -/
def TableModels (t : HashTable) (n : Nat) (hist : List (CStr × Int)) : Prop :=
  t.numBuckets = (n : Int) ∧ t.buckets.length = n ∧
    ∀ i < n, t.buckets.getD i Chain.term
      = chainOf (hist.filter (fun p => hash p.1.content % n == i))

/-- Modelled from the spec: the spec's construction contract rejects a
non-positive bucket count with an `InvalidCapacity` signal surfaced to the
caller; the source `constructHashTable` has no such path. -/
inductive ConstructError where
  | invalidCapacity : ConstructError
deriving DecidableEq

/-- Modelled from the spec: construction that rejects non-positive bucket
counts (signal `InvalidCapacity`) and otherwise builds the table with every
slot an empty chain. -/
def constructSpec (numBuckets : Int) : Except ConstructError HashTable :=
  if numBuckets ≤ 0 then Except.error ConstructError.invalidCapacity
  else Except.ok ⟨numBuckets, List.replicate numBuckets.toNat Chain.term⟩

/-! ## Chain-level lemmas -/

/-- `chainValue` on a well-formed chain appends the pair at the tail. -/
theorem chainValue_chainOf (l : List (CStr × Int)) (key : CStr) (value : Int)
    (hl : ∀ p ∈ l, p.1.addr ≠ 0) :
    chainValue (chainOf l) key value = chainOf (l ++ [(key, value)]) := by
  induction l with
  | nil => rfl
  | cons p rest ih =>
      have hp : p.1.addr ≠ 0 := hl p (by simp)
      have ih' := ih (fun q hq => hl q (List.mem_cons_of_mem _ hq))
      simp [chainOf, chainValue, hp, ih']

/-- `searchBucket` on a well-formed chain is `List.find?` on key
addresses. -/
theorem searchBucket_chainOf (l : List (CStr × Int)) (key : CStr)
    (hl : ∀ p ∈ l, p.1.addr ≠ 0) :
    searchBucket (chainOf l) key
      = l.find? (fun p => p.1.addr == key.addr) := by
  induction l with
  | nil => rfl
  | cons p rest ih =>
      have hp : p.1.addr ≠ 0 := hl p (by simp)
      have ih' := ih (fun q hq => hl q (List.mem_cons_of_mem _ hq))
      by_cases h : p.1.addr = key.addr
      · have hknz : key.addr ≠ 0 := h ▸ hp
        simp [chainOf, searchBucket, hp, h, hknz, List.find?_cons]
      · simp [chainOf, searchBucket, hp, h, List.find?_cons, ih']

/-- `reformChainExcluding` on a well-formed chain removes exactly the first
address match. -/
theorem reformChainExcluding_chainOf (l : List (CStr × Int)) (key : CStr)
    (hl : ∀ p ∈ l, p.1.addr ≠ 0) :
    reformChainExcluding (chainOf l) key = chainOf (spliceFirst l key) := by
  induction l with
  | nil => rfl
  | cons p rest ih =>
      have hp : p.1.addr ≠ 0 := hl p (by simp)
      have ih' := ih (fun q hq => hl q (List.mem_cons_of_mem _ hq))
      by_cases h : p.1.addr = key.addr
      · have hknz : key.addr ≠ 0 := h ▸ hp
        simp [chainOf, reformChainExcluding, spliceFirst, hp, h, hknz]
      · simp [chainOf, reformChainExcluding, spliceFirst, hp, h, ih']

/-- `printBucket` on a well-formed chain prints the entries in reverse
chain order. -/
theorem printBucket_chainOf (l : List (CStr × Int))
    (hl : ∀ p ∈ l, p.1.addr ≠ 0) :
    printBucket (chainOf l) = l.reverse := by
  induction l with
  | nil => rfl
  | cons p rest ih =>
      have hp : p.1.addr ≠ 0 := hl p (by simp)
      have ih' := ih (fun q hq => hl q (List.mem_cons_of_mem _ hq))
      simp [chainOf, printBucket, hp, ih']

/-- `countMatches` on a well-formed chain counts address matches. -/
theorem countMatches_chainOf (l : List (CStr × Int)) (key : CStr)
    (hl : ∀ p ∈ l, p.1.addr ≠ 0) :
    countMatches (chainOf l) key
      = l.countP (fun p => p.1.addr == key.addr) := by
  induction l with
  | nil => rfl
  | cons p rest ih =>
      have hp : p.1.addr ≠ 0 := hl p (by simp)
      have ih' := ih (fun q hq => hl q (List.mem_cons_of_mem _ hq))
      by_cases h : p.1.addr = key.addr
      · have hknz : key.addr ≠ 0 := h ▸ hp
        simp [chainOf, countMatches, hp, h, hknz, List.countP_cons, ih',
          Nat.add_comm]
      · simp [chainOf, countMatches, hp, h, List.countP_cons, ih']

/-- If a search misses, `reformChainExcluding` returns the chain unchanged
(on any chain, well-formed or not). -/
theorem reform_eq_of_search_none (c : Chain) (key : CStr)
    (h : searchBucket c key = none) : reformChainExcluding c key = c := by
  induction c with
  | term => rfl
  | node k v next ih =>
      by_cases hk : k.addr = 0
      · simp [reformChainExcluding, hk]
      · by_cases hm : k.addr = key.addr
        · have hknz : key.addr ≠ 0 := hm ▸ hk
          exact absurd h (by simp [searchBucket, hk, hm, hknz])
        · have h' : searchBucket next key = none := by
            simpa [searchBucket, hk, hm] using h
          simp [reformChainExcluding, hk, hm, ih h']

/-- A chain with no address match is missed by `searchBucket`. -/
theorem search_none_of_countMatches_zero (c : Chain) (key : CStr)
    (h : countMatches c key = 0) : searchBucket c key = none := by
  induction c with
  | term => rfl
  | node k v next ih =>
      by_cases hk : k.addr = 0
      · simp [searchBucket, hk]
      · by_cases hm : k.addr = key.addr
        · have hknz : key.addr ≠ 0 := hm ▸ hk
          exact absurd h (by simp [countMatches, hk, hm, hknz])
        · have h' : countMatches next key = 0 := by
            simpa [countMatches, hk, hm] using h
          simp [searchBucket, hk, hm, ih h']

/-- After removing from a chain with at most one address match, the search
misses. -/
theorem search_none_after_reform (c : Chain) (key : CStr)
    (h : countMatches c key ≤ 1) :
    searchBucket (reformChainExcluding c key) key = none := by
  induction c with
  | term => rfl
  | node k v next ih =>
      by_cases hk : k.addr = 0
      · simp [reformChainExcluding, searchBucket, hk]
      · by_cases hm : k.addr = key.addr
        · have hknz : key.addr ≠ 0 := hm ▸ hk
          have hstep : countMatches (Chain.node k v next) key
              = 1 + countMatches next key := by
            simp [countMatches, hk, hm, hknz]
          rw [hstep] at h
          have h0 : countMatches next key = 0 := by omega
          simp only [reformChainExcluding, if_pos hk, if_pos hm]
          exact search_none_of_countMatches_zero next key h0
        · have h' : countMatches next key ≤ 1 := by
            simpa [countMatches, hk, hm] using h
          simp [reformChainExcluding, searchBucket, hk, hm, ih h']

/-! ## Table-level lemmas -/

/-- A freshly constructed table models the empty history. -/
theorem constructHashTable_models (n : Nat) :
    TableModels (constructHashTable (n : Int)) n [] := by
  refine ⟨rfl, by simp [constructHashTable], ?_⟩
  intro i hi
  simp [constructHashTable, chainOf, List.getD_eq_getElem?_getD,
    List.getElem?_replicate, hi]

/-- `addToTable` of a real key extends the modelled history by one
entry. -/
theorem addToTable_models (t : HashTable) (n : Nat) (hist : List (CStr × Int))
    (key : CStr) (v : Int) (ht : TableModels t n hist)
    (hh : ∀ p ∈ hist, p.1.addr ≠ 0) (hn : 0 < n) :
    TableModels (addToTable t key v) n (hist ++ [(key, v)]) := by
  obtain ⟨hnum, hlen, hslots⟩ := ht
  have htn : t.numBuckets.toNat = n := by rw [hnum]; exact Int.toNat_natCast n
  have hi0 : hash key.content % n < n := Nat.mod_lt _ hn
  refine ⟨by simpa [addToTable] using hnum, by simpa [addToTable] using hlen, ?_⟩
  intro i hi
  by_cases hcase : i = hash key.content % n
  · subst hcase
    have hget : (addToTable t key v).buckets.getD (hash key.content % n)
        Chain.term
        = chainValue (t.buckets.getD (hash key.content % n) Chain.term)
            key v := by
      have hlt : hash key.content % n < t.buckets.length := by
        rw [hlen]; exact hi0
      simp [addToTable, htn, List.getD_eq_getElem?_getD,
        List.getElem?_set_self hlt]
    rw [hget, hslots _ hi0]
    rw [chainValue_chainOf _ key v
      (fun q hq => hh q (List.mem_of_mem_filter hq))]
    have hfilt : (hist ++ [(key, v)]).filter
        (fun p => hash p.1.content % n == hash key.content % n)
        = hist.filter
            (fun p => hash p.1.content % n == hash key.content % n)
          ++ [(key, v)] := by
      simp [List.filter_append]
    rw [hfilt]
  · have hget : (addToTable t key v).buckets.getD i Chain.term
        = t.buckets.getD i Chain.term := by
      simp [addToTable, htn, List.getD_eq_getElem?_getD,
        List.getElem?_set_ne (fun h => hcase h.symm)]
    have hfilt : (hist ++ [(key, v)]).filter
        (fun p => hash p.1.content % n == i)
        = hist.filter (fun p => hash p.1.content % n == i) := by
      simp [List.filter_append]
      intro h
      exact absurd h.symm hcase
    rw [hget, hfilt, hslots _ hi]

/-- A sequence of upserts of real keys from a modelled table yields the
extended modelled history. -/
theorem applyUpserts_models (ops : List (CStr × Int)) (t : HashTable)
    (n : Nat) (hist : List (CStr × Int)) (ht : TableModels t n hist)
    (hh : ∀ p ∈ hist, p.1.addr ≠ 0) (hops : ∀ p ∈ ops, p.1.addr ≠ 0)
    (hn : 0 < n) :
    TableModels (applyUpserts t ops) n (hist ++ ops) := by
  induction ops generalizing t hist with
  | nil => simpa [applyUpserts] using ht
  | cons p rest ih =>
      have hstep := addToTable_models t n hist p.1 p.2 ht hh hn
      have happ : applyUpserts t (p :: rest)
          = applyUpserts (addToTable t p.1 p.2) rest := rfl
      rw [happ]
      have hh' : ∀ q ∈ hist ++ [(p.1, p.2)], q.1.addr ≠ 0 := by
        intro q hq
        rcases List.mem_append.mp hq with h | h
        · exact hh q h
        · rcases List.mem_singleton.mp h with rfl
          exact hops p (by simp)
      have := ih (addToTable t p.1 p.2) (hist ++ [(p.1, p.2)]) hstep hh'
        (fun q hq => hops q (List.mem_cons_of_mem _ hq))
      simpa using this

/-- `List.find?` only depends on the predicate's values on the list's
elements. -/
theorem find?_congr_mem {α : Type} (l : List α) (p q : α → Bool)
    (h : ∀ a ∈ l, p a = q a) : l.find? p = l.find? q := by
  induction l with
  | nil => rfl
  | cons a rest ih =>
      have ha := h a (by simp)
      have ih' := ih (fun b hb => h b (List.mem_cons_of_mem _ hb))
      by_cases hp : p a = true
      · rw [List.find?_cons_of_pos _ hp, List.find?_cons_of_pos _ (ha ▸ hp)]
      · have hp' : p a = false := by revert hp; cases p a <;> simp
        rw [List.find?_cons_of_neg _ (by simp [hp']),
          List.find?_cons_of_neg _ (by simp [← ha, hp']), ih']

/-- Writing back the element already stored at an in-range index is the
identity. -/
theorem set_getD_self {α : Type} (l : List α) (i : Nat) (d : α)
    (h : i < l.length) : l.set i (l.getD i d) = l := by
  have hd : l.getD i d = l[i] := by
    simp [List.getD_eq_getElem?_getD, List.getElem?_eq_getElem h]
  rw [hd]
  apply List.ext_getElem?
  intro n
  rw [List.getElem?_set]
  split
  · simp_all
  · rfl

/-- `chainValue` preserves chain well-formedness when the inserted key is a
real (non-`""`-literal) string. -/
theorem chainWF_chainValue (c : Chain) (key : CStr) (value : Int)
    (hc : chainWF c) (hkey : key.addr ≠ 0) :
    chainWF (chainValue c key value) := by
  induction c with
  | term => simp [chainValue, chainWF, hkey]
  | node k v next ih =>
      have hk : k.addr ≠ 0 := by
        by_contra h0
        simp [chainWF, h0] at hc
      have hnext : chainWF next := by simpa [chainWF, hk] using hc
      simp [chainValue, chainWF, hk, hkey, ih hnext]

/-- `reformChainExcluding` preserves chain well-formedness. -/
theorem chainWF_reformChainExcluding (c : Chain) (key : CStr)
    (hc : chainWF c) : chainWF (reformChainExcluding c key) := by
  induction c with
  | term => simpa [reformChainExcluding] using hc
  | node k v next ih =>
      have hk : k.addr ≠ 0 := by
        by_contra h0
        simp [chainWF, h0] at hc
      have hnext : chainWF next := by simpa [chainWF, hk] using hc
      by_cases hm : k.addr = key.addr
      · have hknz : key.addr ≠ 0 := hm ▸ hk
        simpa [reformChainExcluding, hk, hm, hknz] using hnext
      · simp [reformChainExcluding, chainWF, hk, hm, hnext, ih hnext]

/-- Removing a key that `searchTable` does not find leaves the table
unchanged. -/
theorem removeFromTable_noop (t : HashTable) (k : CStr)
    (hlen : t.buckets.length = t.numBuckets.toNat) (hpos : 0 < t.numBuckets)
    (h : searchTable t k = none) : removeFromTable t k = t := by
  have htn : 0 < t.numBuckets.toNat := by omega
  have hi : hash k.content % t.numBuckets.toNat < t.buckets.length := by
    rw [hlen]; exact Nat.mod_lt _ htn
  have hre : reformChainExcluding
      (t.buckets.getD (hash k.content % t.numBuckets.toNat) Chain.term) k
      = t.buckets.getD (hash k.content % t.numBuckets.toNat) Chain.term :=
    reform_eq_of_search_none _ k h
  show (⟨t.numBuckets, t.buckets.set _ _⟩ : HashTable) = t
  rw [hre, set_getD_self _ _ _ hi]

/-! ## The claims -/

/-- C7: `hash` is deterministic (equal byte sequences give equal results),
`hash` of the empty string is the seed 5381, and on every input it equals
the fold `acc := acc * 33 + c` over the bytes in order starting from 5381,
with wraparound modulo the 64-bit integer width. -/
theorem hash_djb2_spec :
    (∀ s t : List Nat, s = t → hash s = hash t) ∧ hash [] = 5381 ∧
      ∀ s : List Nat,
        hash s = s.foldl (fun acc c => (acc * 33 + c) % 2 ^ 64) 5381 := by
  refine ⟨fun s t h => by rw [h], rfl, fun s => ?_⟩
  have hfun : (fun h c : Nat => ((h <<< 5) + h + c) % 2 ^ 64)
      = fun acc c : Nat => (acc * 33 + c) % 2 ^ 64 := by
    funext h c
    rw [Nat.shiftLeft_eq]
    norm_num
    ring_nf
  rw [hash, hfun]

/-- C7 witness: the three components at concrete inputs. -/
theorem hash_djb2_spec_witness :
    hash [97] = hash [97] ∧ hash [] = 5381 ∧
      hash [104, 105] = [104, 105].foldl
        (fun acc c => (acc * 33 + c) % 2 ^ 64) 5381 :=
  ⟨hash_djb2_spec.1 [97] [97] rfl, hash_djb2_spec.2.1,
    hash_djb2_spec.2.2 [104, 105]⟩

/-- C8: for a table with positive bucket count, the bucket index consulted
is `hash(key) mod numBuckets`; `addToTable`, `searchTable` and
`removeFromTable` all operate on the chain at that same index, and further
upserts or removals never change the index a key maps to (the bucket count
is preserved for the table's lifetime). -/
theorem bucket_index_consistent (t : HashTable) (k : CStr) (v : Int)
    (hpos : 0 < t.numBuckets) :
    bucketIdx t k = hash k.content % t.numBuckets.toNat
    ∧ (addToTable t k v).buckets
        = t.buckets.set (bucketIdx t k)
            (chainValue (t.buckets.getD (bucketIdx t k) Chain.term) k v)
    ∧ searchTable t k
        = searchBucket (t.buckets.getD (bucketIdx t k) Chain.term) k
    ∧ (removeFromTable t k).buckets
        = t.buckets.set (bucketIdx t k)
            (reformChainExcluding
              (t.buckets.getD (bucketIdx t k) Chain.term) k)
    ∧ (∀ k2 v2, bucketIdx (addToTable t k2 v2) k = bucketIdx t k)
    ∧ (∀ k2, bucketIdx (removeFromTable t k2) k = bucketIdx t k) :=
  ⟨rfl, rfl, rfl, rfl, fun _ _ => rfl, fun _ => rfl⟩

/-- C8 witness: the components at a concrete table and key. -/
theorem bucket_index_consistent_witness :
    0 < (constructHashTable 3).numBuckets
    ∧ searchTable (constructHashTable 3) ⟨1, [97]⟩
        = searchBucket
            ((constructHashTable 3).buckets.getD
              (bucketIdx (constructHashTable 3) ⟨1, [97]⟩) Chain.term)
            ⟨1, [97]⟩ :=
  ⟨by decide,
    (bucket_index_consistent (constructHashTable 3) ⟨1, [97]⟩ 0
      (by decide)).2.2.1⟩

/-- C10: an upsert or a removal of key `k` modifies at most the bucket slot
at `hash(k) mod numBuckets`: every other slot and the `numBuckets` field
are unchanged. -/
theorem frame_other_buckets (t : HashTable) (k : CStr) (v : Int) (j : Nat)
    (hj : j ≠ hash k.content % t.numBuckets.toNat) :
    (addToTable t k v).numBuckets = t.numBuckets
    ∧ (removeFromTable t k).numBuckets = t.numBuckets
    ∧ (addToTable t k v).buckets.getD j Chain.term
        = t.buckets.getD j Chain.term
    ∧ (removeFromTable t k).buckets.getD j Chain.term
        = t.buckets.getD j Chain.term := by
  refine ⟨rfl, rfl, ?_, ?_⟩ <;>
    simp [addToTable, removeFromTable, List.getD_eq_getElem?_getD,
      List.getElem?_set_ne (fun h => hj h.symm)]

/-- C10 witness: slot 1 is untouched by operations on a key hashing to
slot 0. -/
theorem frame_other_buckets_witness :
    (addToTable (constructHashTable 2) ⟨1, [97]⟩ 7).buckets.getD 1 Chain.term
      = (constructHashTable 2).buckets.getD 1 Chain.term := by
  have h := frame_other_buckets (constructHashTable 2) ⟨1, [97]⟩ 7 1
    (by decide)
  exact h.2.2.1

/-- C5 counterexample: the code does not reject a non-positive bucket
count.  `constructHashTable 0` returns an ordinary table (bucket count 0,
no slots) and its return type has no error signal, while the spec-modelled
construction rejects 0 with `InvalidCapacity`. -/
theorem construct_zero_not_rejected :
    constructHashTable 0 = ⟨0, []⟩
    ∧ constructSpec 0 = Except.error ConstructError.invalidCapacity :=
  ⟨rfl, rfl⟩

/-- C5 amended: construction never rejects anything.  For every bucket
count, including non-positive ones, it returns a table carrying that count;
for a non-positive count the slot array is empty, and for a positive count
every slot holds an empty chain. -/
theorem construct_total (nb : Int) :
    (constructHashTable nb).numBuckets = nb
    ∧ (constructHashTable nb).buckets.length = nb.toNat
    ∧ ∀ i, i < nb.toNat →
        (constructHashTable nb).buckets.getD i Chain.term = Chain.term := by
  refine ⟨rfl, by simp [constructHashTable], fun i hi => ?_⟩
  simp [constructHashTable, List.getD_eq_getElem?_getD,
    List.getElem?_replicate, hi]

/-- C5 witness: the amended statement at bucket count 2, slot 0. -/
theorem construct_total_witness :
    (constructHashTable 2).buckets.getD 0 Chain.term = Chain.term :=
  (construct_total 2).2.2 0 (by decide)

/-- C2 counterexample: upserting the same key object twice appends a
duplicate entry instead of overwriting in place, so the chain holds two
entries with the same key. -/
theorem upsert_appends_duplicate :
    (applyUpserts (constructHashTable 1)
        [(⟨1, [97]⟩, 1), (⟨1, [97]⟩, 2)]).buckets.getD 0 Chain.term
      = Chain.node ⟨1, [97]⟩ 1 (Chain.node ⟨1, [97]⟩ 2 Chain.term)
    ∧ countMatches
        ((applyUpserts (constructHashTable 1)
            [(⟨1, [97]⟩, 1), (⟨1, [97]⟩, 2)]).buckets.getD 0 Chain.term)
        ⟨1, [97]⟩ = 2 := by
  decide

/-- C2 amended: `chainValue` performs no key comparison at all.  On any
well-formed chain it always allocates one new node and appends the pair at
the tail before the terminal marker, whether or not the key is already
present, so chains can hold several entries with the same key. -/
theorem chainValue_always_appends (l : List (CStr × Int)) (key : CStr)
    (value : Int) (hl : ∀ p ∈ l, p.1.addr ≠ 0) :
    chainValue (chainOf l) key value = chainOf (l ++ [(key, value)]) :=
  chainValue_chainOf l key value hl

/-- C2 witness: the amended statement on a one-entry chain. -/
theorem chainValue_always_appends_witness :
    chainValue (chainOf [(⟨1, [97]⟩, 1)]) ⟨1, [97]⟩ 2
      = chainOf [(⟨1, [97]⟩, 1), (⟨1, [97]⟩, 2)] :=
  chainValue_always_appends [(⟨1, [97]⟩, 1)] ⟨1, [97]⟩ 2 (by decide)

/-- C3: the claim mandates content comparison of keys, but `searchBucket`
compares key pointers (`bucket->key == key`): two distinct string objects
with equal characters do not match, and the search reports not-found. -/
theorem search_compares_addresses :
    searchBucket (Chain.node ⟨1, [97, 98]⟩ 5 Chain.term) ⟨2, [97, 98]⟩
      = none
    ∧ (⟨1, [97, 98]⟩ : CStr).content = (⟨2, [97, 98]⟩ : CStr).content := by
  decide

/-- An out-of-range or in-range slot read from an all-well-formed slot
array is a well-formed chain. -/
theorem chainWF_getD_of_all (l : List Chain) (i : Nat)
    (hall : ∀ c ∈ l, chainWF c) : chainWF (l.getD i Chain.term) := by
  by_cases hi : i < l.length
  · have hd : l.getD i Chain.term = l[i] := by
      simp [List.getD_eq_getElem?_getD, List.getElem?_eq_getElem hi]
    rw [hd]
    exact hall _ (List.getElem_mem hi)
  · have hle : l.length ≤ i := Nat.le_of_not_lt hi
    have hd : l.getD i Chain.term = Chain.term := by
      simp [List.getD_eq_getElem?_getD, List.getElem?_eq_none hle]
    rw [hd]
    rfl

/-- C9: after construction every slot holds an empty chain (a single
terminal marker), and both mutating operations preserve the invariant that
each chain is zero or more occupied entries followed by exactly one
terminal marker (`Chain` is a finite inductive, so the marker is reached in
finitely many `next` steps; `chainWF` rules out interior `""`-key nodes). -/
theorem chain_shape_invariant :
    (∀ nb : Int, ∀ c ∈ (constructHashTable nb).buckets, c = Chain.term)
    ∧ (∀ t k v, tableWF t → k.addr ≠ 0 → tableWF (addToTable t k v))
    ∧ (∀ t k, tableWF t → tableWF (removeFromTable t k)) := by
  refine ⟨fun nb c hc => List.eq_of_mem_replicate hc, ?_, ?_⟩
  · intro t k v ht hk
    simp only [tableWF, Bool.and_eq_true, beq_iff_eq, List.all_eq_true] at ht ⊢
    obtain ⟨hlen, hall⟩ := ht
    refine ⟨by simpa [addToTable] using hlen, ?_⟩
    intro c hc
    rcases List.mem_or_eq_of_mem_set hc with h | h
    · exact hall c h
    · subst h
      exact chainWF_chainValue _ k v (chainWF_getD_of_all _ _ hall) hk
  · intro t k ht
    simp only [tableWF, Bool.and_eq_true, beq_iff_eq, List.all_eq_true] at ht ⊢
    obtain ⟨hlen, hall⟩ := ht
    refine ⟨by simpa [removeFromTable] using hlen, ?_⟩
    intro c hc
    rcases List.mem_or_eq_of_mem_set hc with h | h
    · exact hall c h
    · subst h
      exact chainWF_reformChainExcluding _ k (chainWF_getD_of_all _ _ hall)

/-- C9 witness: the invariant is preserved by a concrete upsert on a fresh
table. -/
theorem chain_shape_invariant_witness :
    tableWF (addToTable (constructHashTable 1) ⟨1, [97]⟩ 4) :=
  chain_shape_invariant.2.1 (constructHashTable 1) ⟨1, [97]⟩ 4 (by decide)
    (by decide)

/-- C4 counterexample: two upserts into one bucket are printed newest
first, i.e. in reverse insertion order, not oldest first as claimed. -/
theorem printTable_reversed_example :
    printTable (applyUpserts (constructHashTable 1)
        [(⟨1, [97]⟩, 1), (⟨2, [98]⟩, 2)])
      = [(0, [((⟨2, [98]⟩ : CStr), (2 : Int)), (⟨1, [97]⟩, 1)])]
    ∧ printTable (applyUpserts (constructHashTable 1)
        [(⟨1, [97]⟩, 1), (⟨2, [98]⟩, 2)])
      ≠ [(0, [((⟨1, [97]⟩ : CStr), (1 : Int)), (⟨2, [98]⟩, 2)])] := by
  decide

/-- C4 amended: `printTable` visits every bucket index in ascending order
`0..numBuckets`, but within each bucket it visits the occupied entries in
reverse chain order — newest entry first — because `printBucket` recurses
into the tail before printing the current node. -/
theorem printTable_order (n : Nat) (hn : 0 < n) (ops : List (CStr × Int))
    (hops : ∀ p ∈ ops, p.1.addr ≠ 0) :
    printTable (applyUpserts (constructHashTable (n : Int)) ops)
      = (List.range n).map
          (fun i =>
            (i, (ops.filter
                  (fun p => hash p.1.content % n == i)).reverse)) := by
  obtain ⟨hnum, hlen, hslots⟩ :=
    applyUpserts_models ops _ n [] (constructHashTable_models n) (by simp)
      hops hn
  simp only [List.nil_append] at hslots
  rw [printTable, hnum]
  simp only [Int.toNat_natCast]
  apply List.map_congr_left
  intro i hi
  have hi' : i < n := List.mem_range.mp hi
  rw [hslots i hi']
  rw [printBucket_chainOf _
    (fun q hq => hops q (List.mem_of_mem_filter hq))]

/-- C4 witness: the amended order at a concrete table. -/
theorem printTable_order_witness :
    printTable (applyUpserts (constructHashTable 1)
        [(⟨1, [97]⟩, 1), (⟨2, [98]⟩, 2)])
      = (List.range 1).map
          (fun i =>
            (i, ([(⟨1, [97]⟩, 1), ((⟨2, [98]⟩ : CStr), (2 : Int))].filter
                  (fun p => hash p.1.content % 1 == i)).reverse)) :=
  printTable_order 1 (by decide) [(⟨1, [97]⟩, 1), (⟨2, [98]⟩, 2)]
    (by decide)

/-- C6 counterexample: after upserting the same key twice (which leaves two
entries in the chain), a second `removeFromTable` removes another entry, so
remove-twice differs from remove-once. -/
theorem remove_twice_differs :
    removeFromTable (removeFromTable
        (applyUpserts (constructHashTable 1)
          [(⟨1, [97]⟩, 1), (⟨1, [97]⟩, 2)]) ⟨1, [97]⟩) ⟨1, [97]⟩
      ≠ removeFromTable
          (applyUpserts (constructHashTable 1)
            [(⟨1, [97]⟩, 1), (⟨1, [97]⟩, 2)]) ⟨1, [97]⟩ := by
  decide

/-- C6 amended: removing an absent key leaves the table unchanged (a no-op,
not an error), and `remove(k)` twice in a row equals once **provided** the
key's chain holds at most one entry for it — which any duplicate-free
table satisfies, but which a repeated upsert can violate. -/
theorem remove_noop_and_conditional_idempotence (t : HashTable) (k : CStr)
    (hlen : t.buckets.length = t.numBuckets.toNat)
    (hpos : 0 < t.numBuckets) :
    (searchTable t k = none → removeFromTable t k = t)
    ∧ (countMatches
          (t.buckets.getD (hash k.content % t.numBuckets.toNat) Chain.term)
          k ≤ 1 →
        removeFromTable (removeFromTable t k) k = removeFromTable t k) := by
  refine ⟨fun h => removeFromTable_noop t k hlen hpos h, fun hcount => ?_⟩
  have htn : 0 < t.numBuckets.toNat := by omega
  have hi : hash k.content % t.numBuckets.toNat < t.buckets.length := by
    rw [hlen]; exact Nat.mod_lt _ htn
  have hget : (removeFromTable t k).buckets.getD
      (hash k.content % t.numBuckets.toNat) Chain.term
      = reformChainExcluding
          (t.buckets.getD (hash k.content % t.numBuckets.toNat) Chain.term)
          k := by
    simp [removeFromTable, List.getD_eq_getElem?_getD,
      List.getElem?_set_self hi]
  have hsearch : searchTable (removeFromTable t k) k = none := by
    show searchBucket ((removeFromTable t k).buckets.getD
        (hash k.content % t.numBuckets.toNat) Chain.term) k = none
    rw [hget]
    exact search_none_after_reform _ k hcount
  exact removeFromTable_noop (removeFromTable t k) k
    (by simpa [removeFromTable] using hlen) hpos hsearch

/-- C6 witness: the conditional idempotence at a concrete table holding the
key once. -/
theorem remove_noop_and_conditional_idempotence_witness :
    removeFromTable (removeFromTable
        (addToTable (constructHashTable 1) ⟨1, [97]⟩ 5) ⟨1, [97]⟩) ⟨1, [97]⟩
      = removeFromTable
          (addToTable (constructHashTable 1) ⟨1, [97]⟩ 5) ⟨1, [97]⟩ :=
  (remove_noop_and_conditional_idempotence
      (addToTable (constructHashTable 1) ⟨1, [97]⟩ 5) ⟨1, [97]⟩
      (by decide) (by decide)).2 (by decide)

/-- C1 counterexample: after upserting the same key object with value 1 and
then value 2, the lookup returns value 1 — the first upsert, not the most
recent one. -/
theorem lookup_returns_oldest :
    searchTable (applyUpserts (constructHashTable 1)
        [(⟨1, [97]⟩, 1), (⟨1, [97]⟩, 2)]) ⟨1, [97]⟩
      = some (⟨1, [97]⟩, 1)
    ∧ searchTable (applyUpserts (constructHashTable 1)
        [(⟨1, [97]⟩, 1), (⟨1, [97]⟩, 2)]) ⟨1, [97]⟩
      ≠ some (⟨1, [97]⟩, 2) := by
  decide

/-- C1 amended: for every sequence of upserts on a fresh table, the lookup
of a key equals `List.find?` of that key over the upsert sequence: the
key/value pair of the key's **first** (earliest) upsert, and `none` (an
explicit absence) for a key never upserted.  Keys are compared by object
address, and the address-injectivity hypothesis states that no other key
object in the sequence shares the looked-up key's address. -/
theorem lookup_first_upsert (n : Nat) (hn : 0 < n)
    (ops : List (CStr × Int)) (k : CStr)
    (hops : ∀ p ∈ ops, p.1.addr ≠ 0)
    (hinj : ∀ p ∈ ops, p.1.addr = k.addr → p.1 = k) :
    searchTable (applyUpserts (constructHashTable (n : Int)) ops) k
      = ops.find? (fun p => p.1 == k) := by
  obtain ⟨hnum, hlen, hslots⟩ :=
    applyUpserts_models ops _ n [] (constructHashTable_models n) (by simp)
      hops hn
  simp only [List.nil_append] at hslots
  have hi0 : hash k.content % n < n := Nat.mod_lt _ hn
  rw [searchTable]
  rw [hnum]
  simp only [Int.toNat_natCast]
  rw [hslots _ hi0]
  rw [searchBucket_chainOf _ k
    (fun q hq => hops q (List.mem_of_mem_filter hq))]
  rw [List.find?_filter]
  apply find?_congr_mem
  intro p hp
  by_cases hpk : p.1 = k
  · simp [hpk]
  · have haddr : p.1.addr ≠ k.addr := fun h => hpk (hinj p hp h)
    simp [hpk, haddr]

/-- C1 witness: the amended statement at a concrete one-upsert sequence. -/
theorem lookup_first_upsert_witness :
    searchTable (applyUpserts (constructHashTable 1) [(⟨1, [97]⟩, 5)])
        ⟨1, [97]⟩
      = some (⟨1, [97]⟩, 5) := by
  have h := lookup_first_upsert 1 (by decide) [(⟨1, [97]⟩, 5)] ⟨1, [97]⟩
    (by decide) (by decide)
  exact h.trans (by decide)

end Main
